import Mathlib

set_option maxRecDepth 8192

/-!
Verification of the brainfuck interpreter in `src/main.rs` against its
specification.

The embedding mirrors the Rust source:
  * `Token` and `Token.ofChar`  — lines 3-20 (`enum Token`, `impl From<char>`);
  * `Node`                      — lines 22-31 (`enum Node`);
  * `tokenize`                  — lines 36-38;
  * `buildAst`                  — lines 40-68 (`build_ast`); the Rust function
    recurses with a shared iterator, so the Lean version returns the unconsumed
    suffix of the token list next to the node list, and is driven by a fuel
    parameter (`buildAstF`) to make the general recursion structural;
  * `parse`                     — lines 70-72;
  * `execF`                     — lines 74-113 (`_interpret`), fuel-driven
    because the interpreted language has genuinely non-terminating programs;
  * `interpret`                 — lines 115-121.

The Rust evaluator performs no checked error handling of its own: every
failure path in `_interpret` is a process panic (debug-mode overflow checks on
`u8` and `usize` arithmetic, slice indexing out of bounds, `.unwrap()` on the
stdin read).  The `Panic` type below models those aborts, so
`Except.error (p : Panic)` in this development means "the Rust process
panics", not "the function returns an error value".
-/

/-- Tokens produced by the lexer, from `enum Token` (main.rs lines 3-9).
`expr c` carries the classified character exactly as `Token::Expr(char)`
does. -/
inductive Token where
  | openLoop
  | closeLoop
  | expr (c : Char)
  | comment
deriving DecidableEq

/-- Character classification, from `impl From<char> for Token`
(main.rs lines 11-20): the six instruction characters become `expr`,
the two loop delimiters become `openLoop` / `closeLoop`, and every other
character falls through to `comment`. -/
def Token.ofChar (c : Char) : Token :=
  if c = '>' ∨ c = '<' ∨ c = '.' ∨ c = ',' ∨ c = '+' ∨ c = '-' then .expr c
  else if c = '[' then .openLoop
  else if c = ']' then .closeLoop
  else .comment

/-- The lexer, from `tokenize` (main.rs lines 36-38): classify each character
of the input in order. -/
def tokenize (s : List Char) : List Token := s.map Token.ofChar

/-- Parsed instructions, from `enum Node` (main.rs lines 22-31). -/
inductive Node where
  | incr
  | decr
  | shiftLeft
  | shiftRight
  | output
  | input
  | loop (children : List Node)

/-- Parse-time failure. `unknownExpression` models the Rust
`Err("unknown expression")` branch (main.rs line 54).  `outOfFuel` is an
artifact of the fuel-driven embedding of `build_ast`; it is proved
unreachable for the fuel budget `buildAst` supplies. -/
inductive ParseErr where
  | unknownExpression
  | outOfFuel
deriving DecidableEq

/-- Append one leaf node in front of a parse result; models `ast.push(...)`
followed by continuing the `while let` loop in `build_ast`
(main.rs lines 48-53). -/
def pushNode (n : Node) (r : Except ParseErr (List Node × List Token)) :
    Except ParseErr (List Node × List Token) :=
  match r with
  | .error e => .error e
  | .ok (ast, rest) => .ok (n :: ast, rest)

/-- Fuel-driven embedding of `build_ast` (main.rs lines 40-68).  The Rust
function consumes a shared mutable iterator; here the unconsumed tokens are
returned alongside the built node list.  A `closeLoop` ends the current call
returning the tokens after it (line 61-63); end of input ends the call with
nothing left (loop exit, line 67); an `openLoop` parses its body recursively
and wraps it in a `loop` node (lines 56-60); a `comment` is skipped
(line 64). -/
def buildAstF : Nat → List Token → Except ParseErr (List Node × List Token)
  | 0, _ => .error .outOfFuel
  | _ + 1, [] => .ok ([], [])
  | f + 1, t :: rest =>
    match t with
    | .expr c =>
      if c = '>' then pushNode .shiftRight (buildAstF f rest)
      else if c = '<' then pushNode .shiftLeft (buildAstF f rest)
      else if c = '+' then pushNode .incr (buildAstF f rest)
      else if c = '-' then pushNode .decr (buildAstF f rest)
      else if c = '.' then pushNode .output (buildAstF f rest)
      else if c = ',' then pushNode .input (buildAstF f rest)
      else .error .unknownExpression
    | .openLoop =>
      match buildAstF f rest with
      | .error e => .error e
      | .ok (children, rest1) =>
        match buildAstF f rest1 with
        | .error e => .error e
        | .ok (ast, rest2) => .ok (Node.loop children :: ast, rest2)
    | .closeLoop => .ok ([], rest)
    | .comment => buildAstF f rest

/-- `build_ast` run on a whole token list: the fuel `toks.length + 1` is
enough because every recursive call of `build_ast` consumes at least one
token first (proved below as `buildAstF_fuel`). -/
def buildAst (toks : List Token) : Except ParseErr (List Node × List Token) :=
  buildAstF (toks.length + 1) toks

/-- `parse` (main.rs lines 70-72): tokenize, build the tree, and, as in the
Rust code where the iterator is dropped, discard whatever tokens the
outermost `build_ast` call did not consume. -/
def parse (s : List Char) : Except ParseErr (List Node) :=
  (buildAst (tokenize s)).map Prod.fst

/-- Rust-process panics the evaluator can hit, one constructor per panic
site in `_interpret` (main.rs lines 74-113) under the default (debug)
profile:
  * `indexOutOfBounds` — `data[*ptr]` with `*ptr ≥ data.len()`;
  * `addOverflow` — `data[*ptr] += 1` when the cell holds 255 (line 86);
  * `subOverflow` — `data[*ptr] -= 1` when the cell holds 0 (line 89);
  * `ptrUnderflow` — `*ptr -= 1` when the pointer is 0 (line 92);
  * `readFailed` — `read_exact(..).unwrap()` on an exhausted stdin
    (line 102);
  * `outOfFuel` — artifact of the fuel-driven embedding, signalling that the
    chosen fuel did not suffice to finish the run (the Rust program would
    still be executing). -/
inductive Panic where
  | indexOutOfBounds
  | addOverflow
  | subOverflow
  | ptrUnderflow
  | readFailed
  | outOfFuel
deriving DecidableEq

/-- The evaluator's working state: the byte tape `data` and pointer `ptr`
(main.rs lines 118-119), plus the two byte streams, stdin being the bytes not
yet consumed and stdout the bytes written so far.  Cells are `Nat` kept in
0-255 by the checked arithmetic of `execF`. -/
structure St where
  data : List Nat
  ptr : Nat
  stdin : List Nat
  stdout : List Nat
deriving DecidableEq

/-- Replace the current cell; models `data[*ptr] = v` after a successful
bounds check. -/
def St.setCell (st : St) (v : Nat) : St :=
  St.mk (st.data.set st.ptr v) st.ptr st.stdin st.stdout

/-- Fuel-driven embedding of `_interpret` (main.rs lines 74-113).  Each
instruction is executed as in the Rust `match`; a `loop` node re-runs its
children while the current cell is nonzero (lines 105-109).  One unit of
fuel is spent per execution step so that the recursion is structural in the
fuel; a run that returns anything other than `Panic.outOfFuel` behaves
exactly as the unbounded Rust recursion does.  All arithmetic mirrors the
default Rust profile, where `u8` / `usize` overflow panics rather than
wrapping. -/
def execF : Nat → List Node → St → Except Panic St
  | 0, _, _ => .error .outOfFuel
  | _ + 1, [], st => .ok st
  | f + 1, n :: rest, st =>
    match n with
    | .incr =>
      match st.data.get? st.ptr with
      | none => .error .indexOutOfBounds
      | some v =>
        if v + 1 > 255 then .error .addOverflow
        else execF f rest (st.setCell (v + 1))
    | .decr =>
      match st.data.get? st.ptr with
      | none => .error .indexOutOfBounds
      | some v =>
        if v = 0 then .error .subOverflow
        else execF f rest (st.setCell (v - 1))
    | .shiftLeft =>
      if st.ptr = 0 then .error .ptrUnderflow
      else execF f rest (St.mk st.data (st.ptr - 1) st.stdin st.stdout)
    | .shiftRight => execF f rest (St.mk st.data (st.ptr + 1) st.stdin st.stdout)
    | .output =>
      match st.data.get? st.ptr with
      | none => .error .indexOutOfBounds
      | some v => execF f rest (St.mk st.data st.ptr st.stdin (st.stdout ++ [v]))
    | .input =>
      match st.stdin with
      | [] => .error .readFailed
      | b :: bs =>
        match st.data.get? st.ptr with
        | none => .error .indexOutOfBounds
        | some _ => execF f rest (St.mk (st.data.set st.ptr b) st.ptr bs st.stdout)
    | .loop children =>
      match st.data.get? st.ptr with
      | none => .error .indexOutOfBounds
      | some v =>
        if v = 0 then execF f rest st
        else
          match execF f children st with
          | .error e => .error e
          | .ok st1 => execF f (Node.loop children :: rest) st1

/-- The initial evaluator state built by `interpret` (main.rs lines 117-119):
a zeroed 30000-cell tape, pointer 0, nothing written yet. -/
def initSt (stdin : List Nat) : St :=
  St.mk (List.replicate 30000 0) 0 stdin []

/-- `interpret` (main.rs lines 115-121): parse the source and run the tree on
a fresh state, with the fuel of the embedding made explicit.  The left error
component is a parse failure returned by `parse` (propagated by `?` on
line 116); the right one is an evaluator panic. -/
def interpret (fuel : Nat) (src : List Char) (stdin : List Nat) :
    Except (ParseErr ⊕ Panic) St :=
  match parse src with
  | .error e => .error (.inl e)
  | .ok ast =>
    match execF fuel ast (initSt stdin) with
    | .error p => .error (.inr p)
    | .ok st => .ok st

/-! ### Parser lemmas -/

/-- Whatever tokens a `build_ast` call leaves unconsumed form a suffix of the
tokens it was handed: the shared iterator only ever moves forward. -/
theorem buildAstF_suffix :
    ∀ f toks a r, buildAstF f toks = .ok (a, r) → r <:+ toks := by
  intro f
  induction f with
  | zero => intro toks a r h; simp [buildAstF] at h
  | succ f ih =>
    intro toks a r h
    match toks with
    | [] =>
      simp only [buildAstF] at h
      cases h
      exact List.nil_suffix
    | .expr c :: rest =>
      simp only [buildAstF] at h
      split at h <;> [skip; split at h] <;> [skip; skip; split at h] <;>
        [skip; skip; skip; split at h] <;> [skip; skip; skip; skip; split at h] <;>
        [skip; skip; skip; skip; skip; split at h] <;>
        first
        | (simp only [pushNode] at h
           split at h
           · exact absurd h (by simp)
           · rename_i heq
             cases h
             exact (ih _ _ _ heq).trans (List.suffix_cons _ _))
        | exact absurd h (by simp)
    | .openLoop :: rest =>
      simp only [buildAstF] at h
      split at h
      · exact absurd h (by simp)
      · rename_i children rest1 h1
        split at h
        · exact absurd h (by simp)
        · rename_i ast rest2 h2
          cases h
          exact ((ih _ _ _ h2).trans (ih _ _ _ h1)).trans (List.suffix_cons _ _)
    | .closeLoop :: rest =>
      simp only [buildAstF] at h
      cases h
      exact List.suffix_cons _ _
    | .comment :: rest =>
      simp only [buildAstF] at h
      exact (ih _ _ _ h).trans (List.suffix_cons _ _)

/-- Fuel irrelevance: any fuel beyond the number of tokens yields the same
result, because every recursive call of `build_ast` first consumes at least
one token.  This justifies the fuel budget chosen in `buildAst`. -/
theorem buildAstF_fuel :
    ∀ f g toks, toks.length < f → toks.length < g →
      buildAstF f toks = buildAstF g toks := by
  intro f
  induction f with
  | zero => intro g toks hf _; exact absurd hf (by omega)
  | succ f ih =>
    intro g toks hf hg
    match g with
    | 0 => exact absurd hg (by omega)
    | g + 1 =>
      match toks with
      | [] => rfl
      | .expr c :: rest =>
        have h1 : rest.length < f := by simp at hf; omega
        have h2 : rest.length < g := by simp at hg; omega
        simp only [buildAstF]
        rw [ih g rest h1 h2]
      | .openLoop :: rest =>
        have h1 : rest.length < f := by simp at hf; omega
        have h2 : rest.length < g := by simp at hg; omega
        simp only [buildAstF]
        rw [ih g rest h1 h2]
        cases hh : buildAstF g rest with
        | error e => rfl
        | ok p =>
          obtain ⟨children, rest1⟩ := p
          have hs : rest1.length ≤ rest.length :=
            (buildAstF_suffix _ _ _ _ hh).length_le
          dsimp only
          rw [ih g rest1 (by omega) (by omega)]
      | .closeLoop :: rest => rfl
      | .comment :: rest =>
        have h1 : rest.length < f := by simp at hf; omega
        have h2 : rest.length < g := by simp at hg; omega
        simp only [buildAstF]
        exact ih g rest h1 h2

/-- One `build_ast` step on an instruction token: push the corresponding
leaf node (main.rs lines 47-55). -/
theorem buildAst_cons_expr (c : Char) (rest : List Token) :
    buildAst (Token.expr c :: rest) =
      (if c = '>' then pushNode .shiftRight (buildAst rest)
       else if c = '<' then pushNode .shiftLeft (buildAst rest)
       else if c = '+' then pushNode .incr (buildAst rest)
       else if c = '-' then pushNode .decr (buildAst rest)
       else if c = '.' then pushNode .output (buildAst rest)
       else if c = ',' then pushNode .input (buildAst rest)
       else .error .unknownExpression) := rfl

/-- One `build_ast` step on a comment token: skip it (main.rs line 64). -/
theorem buildAst_cons_comment (rest : List Token) :
    buildAst (Token.comment :: rest) = buildAst rest := rfl

/-- One `build_ast` step on a close token: end the current call, returning
the nodes built so far and leaving the remaining tokens unconsumed
(main.rs lines 61-63). -/
theorem buildAst_cons_close (rest : List Token) :
    buildAst (Token.closeLoop :: rest) = .ok ([], rest) := rfl

/-- One `build_ast` step on an open token: parse the body recursively up to
the matching close, wrap it in a `loop` node, and go on parsing after it
(main.rs lines 56-60). -/
theorem buildAst_cons_open (rest : List Token) :
    buildAst (Token.openLoop :: rest) =
      (match buildAst rest with
       | .error e => .error e
       | .ok (children, rest1) =>
         match buildAst rest1 with
         | .error e => .error e
         | .ok (ast, rest2) => .ok (Node.loop children :: ast, rest2)) := by
  have h0 : buildAst (Token.openLoop :: rest) =
      (match buildAstF (rest.length + 1) rest with
       | .error e => .error e
       | .ok (children, rest1) =>
         match buildAstF (rest.length + 1) rest1 with
         | .error e => .error e
         | .ok (ast, rest2) => .ok (Node.loop children :: ast, rest2)) := rfl
  rw [h0]
  show _ = (match buildAstF (rest.length + 1) rest with
       | .error e => .error e
       | .ok (children, rest1) =>
         match buildAstF (rest1.length + 1) rest1 with
         | .error e => .error e
         | .ok (ast, rest2) => .ok (Node.loop children :: ast, rest2))
  cases hh : buildAstF (rest.length + 1) rest with
  | error e => rfl
  | ok p =>
    obtain ⟨children, rest1⟩ := p
    have hs : rest1.length ≤ rest.length :=
      (buildAstF_suffix _ _ _ _ hh).length_le
    dsimp only
    rw [buildAstF_fuel (rest.length + 1) (rest1.length + 1) rest1
      (by omega) (by omega)]

/-- A token that cannot trip the parser's "unknown expression" branch: every
`expr` payload is one of the six instruction characters matched on
main.rs lines 48-53. -/
def GoodTok : Token → Prop
  | .expr c => c = '>' ∨ c = '<' ∨ c = '+' ∨ c = '-' ∨ c = '.' ∨ c = ','
  | _ => True

/-- The lexer only emits good tokens: `Token::Expr` is produced exactly for
the six instruction characters (main.rs line 14). -/
theorem goodTok_ofChar (c : Char) : GoodTok (Token.ofChar c) := by
  unfold Token.ofChar
  split_ifs with h1 h2 h3
  · unfold GoodTok; tauto
  all_goals exact trivial

/-- On good tokens `build_ast` always succeeds: with fuel beyond the token
count the fuel guard never fires, and the "unknown expression" branch is
unreachable. -/
theorem buildAstF_ok :
    ∀ f toks, toks.length < f → (∀ t ∈ toks, GoodTok t) →
      ∃ p, buildAstF f toks = .ok p := by
  intro f
  induction f with
  | zero => intro toks h _; exact absurd h (by omega)
  | succ f ih =>
    intro toks hlen hgood
    match toks with
    | [] => exact ⟨([], []), rfl⟩
    | .expr c :: rest =>
      have h1 : rest.length < f := by simp at hlen; omega
      have h2 : ∀ t ∈ rest, GoodTok t := fun t ht => hgood t (by simp [ht])
      obtain ⟨p, hp⟩ := ih rest h1 h2
      have hc : GoodTok (Token.expr c) := hgood _ (by simp)
      unfold GoodTok at hc
      simp only [buildAstF]
      rcases hc with rfl | rfl | rfl | rfl | rfl | rfl <;>
        simp [hp, pushNode]
    | .openLoop :: rest =>
      have h1 : rest.length < f := by simp at hlen; omega
      have h2 : ∀ t ∈ rest, GoodTok t := fun t ht => hgood t (by simp [ht])
      obtain ⟨p, hp⟩ := ih rest h1 h2
      obtain ⟨children, rest1⟩ := p
      have hs := buildAstF_suffix _ _ _ _ hp
      have h3 : rest1.length < f := by
        have := hs.length_le; omega
      have h4 : ∀ t ∈ rest1, GoodTok t := fun t ht =>
        h2 t (hs.sublist.subset ht)
      obtain ⟨q, hq⟩ := ih rest1 h3 h4
      obtain ⟨ast, rest2⟩ := q
      exact ⟨(Node.loop children :: ast, rest2), by simp [buildAstF, hp, hq]⟩
    | .closeLoop :: rest => exact ⟨([], rest), rfl⟩
    | .comment :: rest =>
      have h1 : rest.length < f := by simp at hlen; omega
      have h2 : ∀ t ∈ rest, GoodTok t := fun t ht => hgood t (by simp [ht])
      obtain ⟨p, hp⟩ := ih rest h1 h2
      exact ⟨p, hp⟩

/-- Wrapper of `buildAstF_suffix` at the canonical fuel. -/
theorem buildAst_suffix {toks : List Token} {a : List Node} {r : List Token}
    (h : buildAst toks = .ok (a, r)) : r <:+ toks :=
  buildAstF_suffix _ _ _ _ h

/-! ### Claim theorems -/

/-- C9: the parser's "unknown expression" branch is unreachable from the
lexer.  `tokenize` only produces `expr` tokens for the six instruction
characters, so `parse` of any lexed string succeeds — it never returns the
"unknown expression" error (nor any other failure). -/
theorem parse_never_unknownExpression :
    ∀ s : List Char, ∃ a : List Node, parse s = .ok a := by
  intro s
  have hgood : ∀ t ∈ tokenize s, GoodTok t := by
    intro t ht
    obtain ⟨c, _, rfl⟩ := List.mem_map.mp ht
    exact goodTok_ofChar c
  obtain ⟨⟨a, r⟩, h⟩ :=
    buildAstF_ok ((tokenize s).length + 1) (tokenize s) (by omega) hgood
  exact ⟨a, by simp [parse, buildAst, h, Except.map]⟩

/-- C6: the lexer is a pure total function producing one token per input
character in order — same length, pointwise classification by
`Token.ofChar` — with each of the eight recognized symbols mapped to its
token and every other character mapped to `comment`. -/
theorem tokenize_contract :
    (∀ s : List Char, (tokenize s).length = s.length)
    ∧ (∀ (s : List Char) (i : Nat), (tokenize s)[i]? = (s[i]?).map Token.ofChar)
    ∧ Token.ofChar '>' = .expr '>' ∧ Token.ofChar '<' = .expr '<'
    ∧ Token.ofChar '+' = .expr '+' ∧ Token.ofChar '-' = .expr '-'
    ∧ Token.ofChar '.' = .expr '.' ∧ Token.ofChar ',' = .expr ','
    ∧ Token.ofChar '[' = .openLoop ∧ Token.ofChar ']' = .closeLoop
    ∧ (∀ c : Char,
        c = '>' ∨ c = '<' ∨ c = '.' ∨ c = ',' ∨ c = '+' ∨ c = '-'
          ∨ c = '[' ∨ c = ']' ∨ Token.ofChar c = .comment) := by
  refine ⟨fun s => List.length_map s Token.ofChar,
    fun s i => List.getElem?_map Token.ofChar s i,
    by decide, by decide, by decide, by decide, by decide, by decide,
    by decide, by decide, ?_⟩
  intro c
  unfold Token.ofChar
  split_ifs with h1 h2 h3
  · tauto
  · tauto
  · tauto
  · tauto

/-- C7: parsing the empty string succeeds with the empty instruction
sequence, and running the empty sequence is a no-op: no output is written,
no input byte is consumed, and the state — a zeroed 30000-cell tape with the
pointer at 0 — is returned untouched. -/
theorem null_program :
    parse [] = .ok []
    ∧ (∀ (fuel : Nat) (stdin : List Nat),
        execF (fuel + 1) [] (initSt stdin) = .ok (initSt stdin))
    ∧ (∀ stdin : List Nat,
        (initSt stdin).data = List.replicate 30000 0 ∧ (initSt stdin).ptr = 0
          ∧ (initSt stdin).stdin = stdin ∧ (initSt stdin).stdout = [])
    ∧ (∀ (fuel : Nat) (stdin : List Nat),
        interpret (fuel + 1) [] stdin = .ok (initSt stdin)) :=
  ⟨rfl, fun _ _ => rfl, fun _ => ⟨rfl, rfl, rfl, rfl⟩, fun _ _ => rfl⟩

/-- C1 counterexample: the claim says `parse "["` and `parse "]"` both
return parse errors; in fact both succeed — the unterminated loop is
silently closed at end of input and the unmatched close silently ends the
top-level parse. -/
theorem unmatchedDelimiters_counterexample :
    parse ['['] = .ok [Node.loop []] ∧ parse [']'] = .ok [] := ⟨rfl, rfl⟩

/-- C1 amended: `build_ast` has no error path for unmatched delimiters.
Source `[` lexes to a lone `openLoop` and parses successfully to a single
`loop` node with empty body (the recursive call hits end of input and its
partial body is accepted); source `]` lexes to a lone `closeLoop` and parses
successfully to the empty sequence (the close merely ends the outermost
call).  There is no panic, but also no error: the trees are silently
truncated exactly as the claim says must not happen. -/
theorem unmatchedDelimiters_amended :
    tokenize ['['] = [Token.openLoop]
    ∧ buildAst [Token.openLoop] = .ok ([Node.loop []], [])
    ∧ parse ['['] = .ok [Node.loop []]
    ∧ tokenize [']'] = [Token.closeLoop]
    ∧ buildAst [Token.closeLoop] = .ok ([], [])
    ∧ parse [']'] = .ok [] :=
  ⟨rfl, rfl, rfl, rfl, rfl, rfl⟩

/-- C2: the claim says `Incr` / `Decr` wrap modulo 256 with no abort.  The
code's unchecked `u8` arithmetic (main.rs lines 86, 89) panics instead under
the default profile: one `Decr` on a zeroed cell panics with a subtraction
overflow rather than producing 255, and the 256th consecutive `Incr` on a
zeroed cell panics with an addition overflow rather than wrapping to 0
(255 consecutive `Incr` still succeed, leaving the cell at 255). -/
theorem cellArithmetic_panics :
    parse ['-'] = .ok [Node.decr]
    ∧ execF 10 [Node.decr] (initSt []) = .error Panic.subOverflow
    ∧ interpret 10 ['-'] [] = .error (.inr Panic.subOverflow)
    ∧ parse (List.replicate 256 '+') = .ok (List.replicate 256 Node.incr)
    ∧ execF 300 (List.replicate 256 Node.incr) (initSt [])
        = .error Panic.addOverflow
    ∧ (execF 300 (List.replicate 255 Node.incr) (initSt [])).map
        (fun st => st.data.get? st.ptr) = .ok (some 255) :=
  ⟨rfl, rfl, rfl, rfl, rfl, rfl⟩

/-- C3: the claim says an out-of-range shift yields the defined runtime
error `RuntimeError::PointerOutOfBounds`.  The code has no such error: a
`ShiftLeft` at the leftmost position executes the unchecked `*ptr -= 1`
(main.rs line 92), which panics with a `usize` subtraction overflow under
the default profile, aborting the process instead of returning a typed
error. -/
theorem pointerUnderflow_panics :
    parse ['<'] = .ok [Node.shiftLeft]
    ∧ execF 10 [Node.shiftLeft] (initSt []) = .error Panic.ptrUnderflow
    ∧ interpret 10 ['<'] [] = .error (.inr Panic.ptrUnderflow) :=
  ⟨rfl, rfl, rfl⟩

/-- C5: the claim says `Input` has defined end-of-stream behavior and the
core never aborts.  The code reads one byte with
`read_exact(..).unwrap()` (main.rs line 102): when a byte is available it is
stored in the current cell as claimed, but on an exhausted input source the
`unwrap` panics, aborting the process instead of failing in a typed way or
leaving the cell unchanged. -/
theorem inputEof_panics :
    parse [','] = .ok [Node.input]
    ∧ execF 10 [Node.input] (initSt []) = .error Panic.readFailed
    ∧ interpret 10 [','] [] = .error (.inr Panic.readFailed)
    ∧ (execF 10 [Node.input] (initSt [65, 66])).map
        (fun st => (st.data.get? st.ptr, st.stdin, st.stdout))
        = .ok (some 65, [66], []) :=
  ⟨rfl, rfl, rfl, rfl⟩

/-- C4: a `loop` node has while-semantics — the condition `tape[ptr] != 0`
is checked before every pass including the first (skipping the body entirely
on a zero cell, and running one full pass then re-testing on a nonzero
cell) — and consequently the program `+[-.]` run from the initial state
terminates, outputting exactly the single byte 0. -/
theorem loop_whileSemantics :
    (∀ (f : Nat) (b rest : List Node) (st : St),
       st.data.get? st.ptr = some 0 →
       execF (f + 1) (Node.loop b :: rest) st = execF f rest st)
    ∧ (∀ (f : Nat) (b rest : List Node) (st : St) (v : Nat),
       st.data.get? st.ptr = some v → v ≠ 0 →
       execF (f + 1) (Node.loop b :: rest) st =
         (match execF f b st with
          | .error e => .error e
          | .ok st1 => execF f (Node.loop b :: rest) st1))
    ∧ parse ['+', '[', '-', '.', ']']
        = .ok [Node.incr, Node.loop [Node.decr, Node.output]]
    ∧ (execF 10 [Node.incr, Node.loop [Node.decr, Node.output]]
        (initSt [])).map St.stdout = .ok [0]
    ∧ (interpret 10 ['+', '[', '-', '.', ']'] []).map St.stdout = .ok [0] := by
  refine ⟨?_, ?_, rfl, rfl, rfl⟩
  · intro f b rest st h
    rw [List.get?_eq_getElem?] at h
    simp [execF, h]
  · intro f b rest st v h hv
    rw [List.get?_eq_getElem?] at h
    simp [execF, h, hv]

/-- Witness for C4: the hypothesised conjuncts applied at concrete states —
a loop over a zero cell at the initial state falls through to the rest of
the program, and a loop over a cell holding 1 runs its body once and
re-enters. -/
theorem loop_whileSemantics_witness :
    execF 1 [Node.loop [Node.output]] (initSt []) = execF 0 [] (initSt [])
    ∧ execF 2 [Node.loop [Node.decr]] ((initSt []).setCell 1) =
        (match execF 1 [Node.decr] ((initSt []).setCell 1) with
         | .error e => .error e
         | .ok st1 => execF 1 [Node.loop [Node.decr]] st1) :=
  ⟨loop_whileSemantics.1 0 [Node.output] [] (initSt []) rfl,
   loop_whileSemantics.2.1 1 [Node.decr] [] ((initSt []).setCell 1) 1 rfl
     (by decide)⟩

/-! ### Comment transparency -/

/-- Tokens that make the parser do something; `comment` is the only token
`build_ast` skips without effect (main.rs line 64). -/
def isCodeTok : Token → Bool
  | .comment => false
  | _ => true

/-- Characters the lexer classifies as anything but `comment`: exactly the
eight recognized symbols. -/
def isCodeChar (c : Char) : Bool := isCodeTok (Token.ofChar c)

/-- Drop comment tokens from the unconsumed remainder of a parse result. -/
def filterRest (r : Except ParseErr (List Node × List Token)) :
    Except ParseErr (List Node × List Token) :=
  match r with
  | .error e => .error e
  | .ok (a, rest) => .ok (a, rest.filter isCodeTok)

/-- `pushNode` only touches the node list, so it commutes with filtering
the remainder. -/
theorem pushNode_filterRest (n : Node)
    (r : Except ParseErr (List Node × List Token)) :
    pushNode n (filterRest r) = filterRest (pushNode n r) := by
  cases r with
  | error e => rfl
  | ok p => obtain ⟨a, rest⟩ := p; rfl

/-- Comment tokens are transparent to `build_ast`: parsing a token list with
its comments removed builds the same nodes and leaves the same (filtered)
remainder. -/
theorem buildAst_filter :
    ∀ toks : List Token,
      buildAst (toks.filter isCodeTok) = filterRest (buildAst toks) := by
  have main : ∀ (n : Nat) (toks : List Token), toks.length ≤ n →
      buildAst (toks.filter isCodeTok) = filterRest (buildAst toks) := by
    intro n
    induction n with
    | zero =>
      intro toks h
      match toks with
      | [] => rfl
    | succ n ih =>
      intro toks h
      match toks with
      | [] => rfl
      | .comment :: rest =>
        have hr : rest.length ≤ n := by simp at h; omega
        calc buildAst ((Token.comment :: rest).filter isCodeTok)
            = buildAst (rest.filter isCodeTok) := by
              simp [List.filter_cons, isCodeTok]
          _ = filterRest (buildAst rest) := ih rest hr
          _ = filterRest (buildAst (Token.comment :: rest)) := by
              rw [buildAst_cons_comment]
      | .closeLoop :: rest =>
        have hf : (Token.closeLoop :: rest).filter isCodeTok
            = Token.closeLoop :: rest.filter isCodeTok := by
          simp [List.filter_cons, isCodeTok]
        rw [hf, buildAst_cons_close, buildAst_cons_close]
        rfl
      | .expr c :: rest =>
        have hr : rest.length ≤ n := by simp at h; omega
        have hf : (Token.expr c :: rest).filter isCodeTok
            = Token.expr c :: rest.filter isCodeTok := by
          simp [List.filter_cons, isCodeTok]
        rw [hf, buildAst_cons_expr, buildAst_cons_expr, ih rest hr]
        split_ifs <;> first | rw [pushNode_filterRest] | rfl
      | .openLoop :: rest =>
        have hr : rest.length ≤ n := by simp at h; omega
        have hf : (Token.openLoop :: rest).filter isCodeTok
            = Token.openLoop :: rest.filter isCodeTok := by
          simp [List.filter_cons, isCodeTok]
        rw [hf, buildAst_cons_open, buildAst_cons_open, ih rest hr]
        cases hh : buildAst rest with
        | error e => rfl
        | ok p =>
          obtain ⟨children, rest1⟩ := p
          have hs : rest1.length ≤ rest.length := (buildAst_suffix hh).length_le
          dsimp only [filterRest]
          rw [ih rest1 (by omega)]
          cases hh1 : buildAst rest1 with
          | error e => rfl
          | ok q => obtain ⟨ast, rest2⟩ := q; rfl
  exact fun toks => main toks.length toks le_rfl

/-- Stripping comment characters from the source does not change the parse:
the lexer turns non-instruction characters into `comment` tokens, which
`build_ast` skips. -/
theorem parse_filter (s : List Char) :
    parse (s.filter isCodeChar) = parse s := by
  unfold parse
  have h1 : tokenize (s.filter isCodeChar) = (tokenize s).filter isCodeTok :=
    (List.filter_map Token.ofChar s).symm
  rw [h1, buildAst_filter]
  cases buildAst (tokenize s) with
  | error e => rfl
  | ok p => obtain ⟨a, r⟩ := p; rfl

/-- C8: comment transparency.  Any two sources with the same sequence of
instruction characters — in particular, a valid program and the same program
with arbitrary non-instruction characters inserted anywhere, including
inside loop bodies — parse to the same instruction tree, and their runs from
the same initial state are identical, hence byte-for-byte identical
output. -/
theorem comment_transparency :
    ∀ s t : List Char, s.filter isCodeChar = t.filter isCodeChar →
      parse s = parse t
      ∧ ∀ (fuel : Nat) (stdin : List Nat),
          interpret fuel s stdin = interpret fuel t stdin := by
  intro s t h
  have hp : parse s = parse t := by
    rw [← parse_filter s, ← parse_filter t, h]
  refine ⟨hp, fun fuel stdin => ?_⟩
  unfold interpret
  rw [hp]

/-- Witness for C8: inserting a letter and a newline into `+.` changes
neither the parse nor the run. -/
theorem comment_transparency_witness :
    parse ['+', '.'] = parse ['+', 'a', '.', '\n']
    ∧ interpret 10 ['+', '.'] [] = interpret 10 ['+', 'a', '.', '\n'] [] :=
  ⟨(comment_transparency ['+', '.'] ['+', 'a', '.', '\n'] (by decide)).1,
   (comment_transparency ['+', '.'] ['+', 'a', '.', '\n'] (by decide)).2 10 []⟩

/-! ### Close token at the outermost level -/

/-- The leaf node `build_ast` pushes for each instruction character
(main.rs lines 48-53), `none` for a character that would hit the
"unknown expression" branch. -/
def exprNode (c : Char) : Option Node :=
  if c = '>' then some .shiftRight
  else if c = '<' then some .shiftLeft
  else if c = '+' then some .incr
  else if c = '-' then some .decr
  else if c = '.' then some .output
  else if c = ',' then some .input
  else none

/-- The expr step of `build_ast`, phrased through `exprNode`. -/
theorem buildAst_cons_expr_some (c : Char) (nd : Node) (rest : List Token)
    (h : exprNode c = some nd) :
    buildAst (Token.expr c :: rest) = pushNode nd (buildAst rest) := by
  rw [buildAst_cons_expr]
  unfold exprNode at h
  split_ifs at h ⊢ <;> simp_all

/-- Token sequences that one `build_ast` call consumes in full without ever
returning early: instruction and comment tokens, and completely bracketed
loops.  A `closeLoop` appearing after such a prefix is seen by the
outermost call with no enclosing open loop. -/
inductive BalancedToks : List Token → Prop where
  | nil : BalancedToks []
  | expr : ∀ (c : Char) (nd : Node) (rest : List Token),
      exprNode c = some nd → BalancedToks rest → BalancedToks (Token.expr c :: rest)
  | comment : ∀ rest : List Token,
      BalancedToks rest → BalancedToks (Token.comment :: rest)
  | loop : ∀ inner rest : List Token,
      BalancedToks inner → BalancedToks rest →
      BalancedToks (Token.openLoop :: inner ++ Token.closeLoop :: rest)

/-- Prepend already-built nodes in front of a parse result. -/
def prependRes (a : List Node) (r : Except ParseErr (List Node × List Token)) :
    Except ParseErr (List Node × List Token) :=
  match r with
  | .error e => .error e
  | .ok (b, rest) => .ok (a ++ b, rest)

/-- A balanced prefix is consumed completely and deterministically: whatever
follows it, `build_ast` first builds the prefix's nodes and then continues
on the remaining tokens exactly as if called on them alone. -/
theorem buildAst_balanced :
    ∀ pre : List Token, BalancedToks pre →
      ∃ a : List Node, ∀ post : List Token,
        buildAst (pre ++ post) = prependRes a (buildAst post) := by
  intro pre hb
  induction hb with
  | nil =>
    refine ⟨[], fun post => ?_⟩
    show buildAst post = prependRes [] (buildAst post)
    cases hp : buildAst post with
    | error e => rfl
    | ok p => obtain ⟨b, r⟩ := p; rfl
  | expr c nd rest hnd hrest ih =>
    obtain ⟨a, ha⟩ := ih
    refine ⟨nd :: a, fun post => ?_⟩
    rw [List.cons_append, buildAst_cons_expr_some c nd _ hnd, ha post]
    cases buildAst post with
    | error e => rfl
    | ok p => obtain ⟨b, r⟩ := p; rfl
  | comment rest hrest ih =>
    obtain ⟨a, ha⟩ := ih
    exact ⟨a, fun post => by rw [List.cons_append, buildAst_cons_comment, ha post]⟩
  | loop inner rest hinner hrest ihi ihr =>
    obtain ⟨ai, hai⟩ := ihi
    obtain ⟨ar, har⟩ := ihr
    refine ⟨Node.loop ai :: ar, fun post => ?_⟩
    have hsplit : (Token.openLoop :: inner ++ Token.closeLoop :: rest) ++ post
        = Token.openLoop :: (inner ++ (Token.closeLoop :: (rest ++ post))) := by
      simp
    rw [hsplit, buildAst_cons_open, hai (Token.closeLoop :: (rest ++ post)),
      buildAst_cons_close]
    dsimp only [prependRes]
    rw [har post]
    cases buildAst post with
    | error e => rfl
    | ok p => obtain ⟨b, r⟩ := p; simp [prependRes]

/-- C10: a `closeLoop` token reaching the outermost `build_ast` call simply
ends that call (main.rs lines 61-63): parsing succeeds with exactly the
nodes built from the balanced prefix before the close, and every token after
the close is left unconsumed — `parse` then drops them, so e.g. `+]+`
parses to the single node `Incr`. -/
theorem closeLoop_at_top :
    (∀ (pre post : List Token) (a : List Node),
       BalancedToks pre → buildAst pre = .ok (a, []) →
       buildAst (pre ++ Token.closeLoop :: post) = .ok (a, post))
    ∧ parse ['+', ']', '+'] = .ok [Node.incr] := by
  refine ⟨?_, rfl⟩
  intro pre post a hb hpre
  obtain ⟨a0, h0⟩ := buildAst_balanced pre hb
  have hnil : buildAst pre = .ok (a0, []) := by
    have hh := h0 []
    rw [List.append_nil] at hh
    rw [hh, show buildAst ([] : List Token) = .ok ([], []) from rfl]
    simp [prependRes]
  have ha : a0 = a := by
    rw [hpre] at hnil
    exact (Prod.mk.injEq _ _ _ _ ▸ Except.ok.inj hnil.symm).1
  rw [h0 (Token.closeLoop :: post), buildAst_cons_close]
  dsimp only [prependRes]
  rw [List.append_nil, ha]

/-- Witness for C10: the balanced prefix `+` followed by `]+`; the close
returns the single `incr` node and the trailing `+` token is discarded. -/
theorem closeLoop_at_top_witness :
    buildAst ([Token.expr '+'] ++ Token.closeLoop :: [Token.expr '+'])
      = .ok ([Node.incr], [Token.expr '+']) :=
  closeLoop_at_top.1 [Token.expr '+'] [Token.expr '+'] [Node.incr]
    (BalancedToks.expr '+' Node.incr [] rfl BalancedToks.nil) rfl
